import Mathlib

/-!
Shallow embedding of the market-basket analysis core of this repository
(`trolldata_utils.py`, `emoji_market_basket.py`, `emoji_word_market_basket.py`),
together with theorems settling the specification claims about it.

Python strings are modelled as `List Char`; Python `float` thresholds and the
support/confidence/lift metrics are modelled as `ℚ` (in the source they are
ratios of transaction counts).  The emoji code-point set `emoji.EMOJI_DATA` is
external library data and is modelled as an arbitrary predicate
`isEmoji : Char → Bool` passed to each definition that consults it.
-/

namespace TrollMBA

/-! ### Python string primitives

`pyIsSpace` models the whitespace set used by Python's `str.split()` /
`str.strip()` (restricted to the ASCII whitespace characters; the exact
membership of the set is irrelevant to the theorems below as long as `' '` is
a member). -/

def pyIsSpace (c : Char) : Bool :=
  c = ' ' || c = '\t' || c = '\n' || c = '\r' || c = '\x0b' || c = '\x0c'

/-- First-occurrence deduplication, the semantics of Python's
`dict.fromkeys(xs)` used in `unique_vals`.  `seen` accumulates the
already-emitted elements. -/
def dedupFirstAux {α : Type} [DecidableEq α] (seen : List α) : List α → List α
  | [] => []
  | a :: l => if a ∈ seen then dedupFirstAux seen l else a :: dedupFirstAux (a :: seen) l

def dedupFirst {α : Type} [DecidableEq α] (l : List α) : List α := dedupFirstAux [] l

/-- Accumulator-based model of Python's `str.split()` (no argument): split on
runs of whitespace, discarding empty tokens.  `cur` holds the current word,
reversed. -/
def pySplitAux (cur : List Char) : List Char → List (List Char)
  | [] => if cur.isEmpty then [] else [cur.reverse]
  | c :: rest =>
    if pyIsSpace c then
      if cur.isEmpty then pySplitAux [] rest else cur.reverse :: pySplitAux [] rest
    else
      pySplitAux (c :: cur) rest

def pySplit (s : List Char) : List (List Char) := pySplitAux [] s

/-- `' '.join(ws)`. -/
def joinSpace : List (List Char) → List Char
  | [] => []
  | w :: ws => w ++ (if ws.isEmpty then [] else ' ' :: joinSpace ws)

/-- `str.strip()`: remove leading and trailing whitespace. -/
def pyStrip (s : List Char) : List Char :=
  ((s.dropWhile pyIsSpace).reverse.dropWhile pyIsSpace).reverse

/-! ### Text Normalizer (`trolldata_utils.py`)

Scalar Python values that can sit in the `content` column (or be passed
directly to the normalizer functions) are either strings or nulls; the
top-level normalizer functions additionally accept a whole DataFrame, which we
model as the list of its `content` cells. -/

inductive PyVal : Type where
  | vStr (s : List Char)
  | vNone
deriving DecidableEq

inductive PyInput : Type where
  | scalar (v : PyVal)
  | frame (content : List PyVal)
deriving DecidableEq

inductive PyErr : Type where
  | attributeError
deriving DecidableEq

inductive PyOut : Type where
  | str (s : List Char)
  | frame (content : List (List Char))
deriving DecidableEq

/-- `trolldata_utils.emoji_only`, string branch (line 66):
`''.join(c for c in input_data if c in emoji.EMOJI_DATA)`. -/
def emoji_only_str (isEmoji : Char → Bool) (s : List Char) : List Char :=
  s.filter isEmoji

/-- The per-cell lambda of `emoji_only`'s DataFrame branch (line 70): a string
cell keeps only its emoji characters, any other cell becomes `''`. -/
def emoji_only_cell (isEmoji : Char → Bool) : PyVal → List Char
  | .vStr s => emoji_only_str isEmoji s
  | .vNone => []

/-- `trolldata_utils.emoji_only` (lines 54-71).  A string input takes the
string branch; any non-string, non-DataFrame input (e.g. `None`) falls through
to `input_data.copy()`, which raises `AttributeError`. -/
def emoji_only (isEmoji : Char → Bool) : PyInput → Except PyErr PyOut
  | .scalar (.vStr s) => .ok (.str (emoji_only_str isEmoji s))
  | .scalar .vNone => .error .attributeError
  | .frame cs => .ok (.frame (cs.map (emoji_only_cell isEmoji)))

/-- Word transformation inside `unique_vals.process_text` (lines 91-97): a word
consisting entirely of emoji characters has its characters deduplicated
first-occurrence (`dict.fromkeys`); any other word is unchanged. -/
def mapWord (isEmoji : Char → Bool) (w : List Char) : List Char :=
  if w.all isEmoji then dedupFirst w else w

/-- The string-level core of `unique_vals` (`process_text`, lines 84-99,
string case): split into whitespace-delimited words, dedup characters of
all-emoji words, then dedup whole words first-occurrence and re-join with
single spaces. -/
def uniqueValsStr (isEmoji : Char → Bool) (s : List Char) : List Char :=
  joinSpace (dedupFirst ((pySplit s).map (mapWord isEmoji)))

/-- `process_text` as applied to an arbitrary cell value (lines 85-86): a
non-string cell yields `''`. -/
def process_text (isEmoji : Char → Bool) : PyVal → List Char
  | .vStr s => uniqueValsStr isEmoji s
  | .vNone => []

/-- `trolldata_utils.unique_vals` (lines 73-108).  A string input is processed
by `process_text`; a `None` input falls through to `input_data.copy()`, which
raises `AttributeError`. -/
def unique_vals (isEmoji : Char → Bool) : PyInput → Except PyErr PyOut
  | .scalar (.vStr s) => .ok (.str (uniqueValsStr isEmoji s))
  | .scalar .vNone => .error .attributeError
  | .frame cs => .ok (.frame (cs.map (process_text isEmoji)))

/-- Does `c :: rest` start a match of the regex `http\S+` (the pattern of
`trolldata_utils.remove_links`)?  The literal `http` must be followed by at
least one non-whitespace character. -/
def linkMatch (c : Char) (rest : List Char) : Bool :=
  c == 'h' && rest.take 3 == ['t', 't', 'p'] &&
    (match (rest.drop 3).head? with
     | some d => !pyIsSpace d
     | none => false)

/-- Leftmost, non-overlapping substitution of `http\S+` by the empty string,
the semantics of `re.sub` in `remove_links` (line 51). -/
def dropLinks : List Char → List Char
  | [] => []
  | c :: rest =>
    if linkMatch c rest then
      dropLinks ((rest.drop 3).dropWhile (fun d => !pyIsSpace d))
    else
      c :: dropLinks rest
termination_by s => s.length
decreasing_by
  · simp only [List.length_cons]
    have h1 := (List.dropWhile_sublist (l := rest.drop 3) (fun d => !pyIsSpace d)).length_le
    have h2 : (rest.drop 3).length ≤ rest.length := by
      simp [List.length_drop]
    omega
  · simp

/-- The per-cell effect of `remove_links` (line 51): regex substitution
followed by `str.strip()`. -/
def remove_links_content (s : List Char) : List Char :=
  pyStrip (dropLinks s)

/-! ### Transaction Builder

`MultiLabelBinarizer.fit_transform` (sklearn): the learned classes are the
distinct items of all transactions in ascending sorted order, and row `t` of
the produced matrix is the indicator row of transaction `t` over those
classes.  Items are generic over a linearly ordered type: `Char` for the
emoji-only variant (single-emoji items), `List Char` for the word+emoji
variant (token items). -/

def allItems {α : Type} (ts : List (List α)) : List α :=
  ts.foldr (· ++ ·) []

def mlbClasses {α : Type} [LinearOrder α] [DecidableEq α] (ts : List (List α)) : List α :=
  List.insertionSort (· ≤ ·) (allItems ts).dedup

def indicatorRow {α : Type} [DecidableEq α] (classes : List α) (t : List α) : List Bool :=
  classes.map (fun c => decide (c ∈ t))

def mlbTransform {α : Type} [LinearOrder α] [DecidableEq α] (ts : List (List α)) : List (List Bool) :=
  ts.map (indicatorRow (mlbClasses ts))

/-- The transaction built from one record in `prepare_emoji_data` (line 30):
`list(set(x))` over the emoji-only string.  A Python `set` iterates in
unspecified order; it is modelled as first-occurrence order, which is
observationally equivalent downstream (only membership and the sorted
vocabulary are consumed). -/
def emojiTransaction (isEmoji : Char → Bool) (s : List Char) : List Char :=
  dedupFirst (emoji_only_str isEmoji s)

/-- `prepare_emoji_data` (`emoji_market_basket.py`, lines 8-35), from the
loaded `content` column (nulls were removed by
`load_troll_dataset(remove_nulls_from=['content'])`, so cells are strings).
Returns the vocabulary (the one-hot DataFrame's columns) and the presence
matrix. -/
def prepare_emoji_data (isEmoji : Char → Bool) (contents : List (List Char)) :
    List Char × List (List Bool) :=
  let ts := contents.map (emojiTransaction isEmoji)
  (mlbClasses ts, mlbTransform ts)

/-- The transaction built from one record in `prepare_emoji_word_data`
(lines 23-37): remove links, normalize with `unique_vals`, split into
tokens. -/
def wordTransaction (isEmoji : Char → Bool) (s : List Char) : List (List Char) :=
  pySplit (uniqueValsStr isEmoji (remove_links_content s))

/-- Global occurrence count of an item across all transactions
(`item_counts`, lines 41-45). -/
def countItem {α : Type} [DecidableEq α] (ts : List (List α)) (a : α) : ℕ :=
  (allItems ts).count a

/-- Python's `int()` applied to a rational: truncation toward zero. -/
def pyInt (q : ℚ) : ℤ :=
  if 0 ≤ q then ⌊q⌋ else ⌈q⌉

/-- The rare-item pruning of `prepare_emoji_word_data` (lines 47-59):
`min_count = int(min_support * total_transactions)`; every item whose global
count is below `min_count` is removed from every transaction.  (The source
materialises the set `frequent_items` and filters by membership in it, which
is equivalent to filtering by the count bound directly, since every item
occurring in a transaction is a key of `item_counts`.) -/
def prepareWordFilter {α : Type} [DecidableEq α] (ts : List (List α)) (min_support : ℚ) :
    List (List α) :=
  ts.map (fun t => t.filter (fun a =>
    decide (pyInt (min_support * (ts.length : ℚ)) ≤ (countItem ts a : ℤ))))

/-- `prepare_emoji_word_data` (`emoji_word_market_basket.py`, lines 8-65),
from the loaded `content` column. -/
def prepare_emoji_word_data (isEmoji : Char → Bool) (contents : List (List Char))
    (min_support : ℚ) : List (List Char) × List (List Bool) :=
  let ts := contents.map (wordTransaction isEmoji)
  let fts := prepareWordFilter ts min_support
  (mlbClasses fts, mlbTransform fts)

/-! ### Itemset Miner and Rule Generator (`market_basket_analyzer`)

The miner (`mlxtend.frequent_patterns.fpgrowth`) and rule generator
(`mlxtend.frequent_patterns.association_rules`) are external collaborators
called by `market_basket_analyzer`; they are embedded by their documented
input/output semantics.  Itemsets are `Finset ℕ` of column indices (the
column names of the one-hot DataFrame are in bijection with their indices). -/

structure Rule : Type where
  antecedents : Finset ℕ
  consequents : Finset ℕ
  support : ℚ
  confidence : ℚ
  lift : ℚ
deriving DecidableEq

inductive MBAError : Type where
  | valueError
deriving DecidableEq

structure MBAResult : Type where
  itemsets : List (Finset ℕ × ℚ)
  rules : List Rule
deriving DecidableEq

def numCols (onehot : List (List Bool)) : ℕ :=
  (onehot.headD []).length

def rowHasItemset (row : List Bool) (S : List ℕ) : Bool :=
  S.all (fun i => row.getD i false)

/-- Support of an itemset: fraction of rows containing all of its items. -/
def itemsetSupport (onehot : List (List Bool)) (S : List ℕ) : ℚ :=
  ((onehot.countP (fun row => rowHasItemset row S) : ℚ)) / ((onehot.length : ℚ))

/-- All non-empty candidate itemsets over the columns. -/
def candidateItemsets (onehot : List (List Bool)) : List (List ℕ) :=
  (List.range (numCols onehot)).sublists.filter (fun S => !S.isEmpty)

/-- The frequent itemsets `fpgrowth` returns: every non-empty itemset whose
support meets `min_support`, with its support. -/
def fpgrowthItemsets (onehot : List (List Bool)) (min_support : ℚ) :
    List (Finset ℕ × ℚ) :=
  (candidateItemsets onehot).filterMap (fun S =>
    if min_support ≤ itemsetSupport onehot S then
      some (S.toFinset, itemsetSupport onehot S)
    else none)

/-- `fpgrowth`: raises `ValueError` for `min_support <= 0` (mlxtend's own
argument check), otherwise returns the frequent itemsets. -/
def fpgrowth (onehot : List (List Bool)) (min_support : ℚ) :
    Except MBAError (List (Finset ℕ × ℚ)) :=
  if min_support ≤ 0 then .error .valueError
  else .ok (fpgrowthItemsets onehot min_support)

/-- Support lookup in the frequent-itemset table (mlxtend's
`association_rules` reads supports from its input). -/
def suppOf (freq : List (Finset ℕ × ℚ)) (S : Finset ℕ) : ℚ :=
  ((freq.find? (fun p => decide (p.1 = S))).map Prod.snd).getD 0

/-- Candidate antecedents of an itemset: its non-empty proper subsets. -/
def ruleSplits (S : Finset ℕ) : List (Finset ℕ) :=
  (((S.sort (· ≤ ·)).sublists.filter
      (fun A => !A.isEmpty && A.length != S.card)).map List.toFinset)

/-- `association_rules(frequent_itemsets, metric="confidence",
min_threshold=min_conf)`: for every frequent itemset of size ≥ 2 and every
split into non-empty antecedent and consequent, keep the rule when its
confidence meets the threshold; confidence and lift are computed from the
tabulated supports. -/
def association_rules (freq : List (Finset ℕ × ℚ)) (min_conf : ℚ) : List Rule :=
  ((freq.map (fun p =>
    if p.1.card < 2 then ([] : List Rule)
    else
      (ruleSplits p.1).filterMap (fun A =>
        let C := p.1 \ A
        let conf := p.2 / suppOf freq A
        if min_conf ≤ conf then
          some ⟨A, C, p.2, conf, conf / suppOf freq C⟩
        else none))).flatten)

/-- The lift predicate of `market_basket_analyzer` (lines 72-83 of
`emoji_market_basket.py`): with negative correlations, keep
`lift >= 1 + lift_distance or lift <= 1 - lift_distance`; otherwise keep
`lift >= 1 + lift_distance`. -/
def liftPass (neg : Bool) (d : ℚ) (l : ℚ) : Bool :=
  if neg then decide (1 + d ≤ l) || decide (l ≤ 1 - d) else decide (1 + d ≤ l)

def liftFilter (neg : Bool) (d : ℚ) (rules : List Rule) : List Rule :=
  rules.filter (fun r => liftPass neg d r.lift)

/-- The mirror test of `check_duplicate` (lines 99-100):
`row['antecedents'] == prev_row['consequents'] and
row['consequents'] == prev_row['antecedents']`. -/
def mirrorOf (r p : Rule) : Bool :=
  decide (r.antecedents = p.consequents) && decide (r.consequents = p.antecedents)

/-- The dedup pass of `market_basket_analyzer` (lines 88-104): the drop mask
for each row is computed against the row's predecessor in the (lift-filtered,
pre-dedup) DataFrame — `prev_row = rules.iloc[current_pos-1]` — and only then
is the mask applied.  Hence `prev` always advances to the current row, whether
or not that row is itself dropped. -/
def dropMirrorAux (prev : Rule) : List Rule → List Rule
  | [] => []
  | r :: rest =>
    if mirrorOf r prev then dropMirrorAux r rest else r :: dropMirrorAux r rest

def removeDuplicates : List Rule → List Rule
  | [] => []
  | r :: rest => r :: dropMirrorAux r rest

/-- `market_basket_analyzer` (lines 46-110), parameterized by the
rule-generation step so that its non-invocation on empty itemsets is
expressible: the result is the same for every `ruleGen`. -/
def market_basket_analyzer_gen
    (ruleGen : List (Finset ℕ × ℚ) → ℚ → List Rule)
    (onehot : List (List Bool)) (support confidence lift_distance : ℚ)
    (find_negative_correlations : Bool) : Except MBAError MBAResult :=
  match fpgrowth onehot support with
  | .error e => .error e
  | .ok freq =>
    if freq.isEmpty then .ok ⟨[], []⟩
    else
      .ok ⟨freq,
        removeDuplicates
          (liftFilter find_negative_correlations lift_distance
            (ruleGen freq confidence))⟩

def market_basket_analyzer (onehot : List (List Bool))
    (support confidence lift_distance : ℚ)
    (find_negative_correlations : Bool) : Except MBAError MBAResult :=
  market_basket_analyzer_gen association_rules onehot support confidence
    lift_distance find_negative_correlations

/-! ### Definitions following the spec's words (for refinement comparison)

These are NOT translations of the source; each follows the wording of a claim
so that the source's behavior can be compared against it. -/

/-- Modelled from the spec claim C2's words: columns ordered as the vocabulary
items in the order the builder first encounters each item across the
transactions. -/
def firstEncounterVocab {α : Type} [DecidableEq α] (ts : List (List α)) : List α :=
  dedupFirst (allItems ts)

/-- Modelled from the spec claim C1's words: drop a rule iff it mirrors the
immediately preceding SURVIVING (retained) rule, i.e. `prev` advances only
when a row is kept. -/
def dropMirrorRetainedAux (prev : Rule) : List Rule → List Rule
  | [] => []
  | r :: rest =>
    if mirrorOf r prev then dropMirrorRetainedAux prev rest
    else r :: dropMirrorRetainedAux r rest

def removeDuplicatesRetained : List Rule → List Rule
  | [] => []
  | r :: rest => r :: dropMirrorRetainedAux r rest

/-- Positional characterization used by the amended claim C1: row `i` is kept
iff `i = 0` or it does not mirror row `i - 1` of the input list. -/
def keptByPosition (rules : List Rule) : List Rule :=
  (rules.zip ((none : Option Rule) :: rules.map some)).filterMap fun rp =>
    match rp.2 with
    | none => some rp.1
    | some p => if mirrorOf rp.1 p then none else some rp.1

/-- Concrete rule A→B (A = column 0, B = column 1) used in counterexamples. -/
def ruleAB : Rule := ⟨{0}, {1}, 1, 1, 2⟩

/-- Concrete rule B→A, the mirror of `ruleAB`. -/
def ruleBA : Rule := ⟨{1}, {0}, 1, 1, 2⟩

/-! ### Helper lemmas -/

theorem mem_dedupFirstAux {α : Type} [DecidableEq α] {x : α} :
    ∀ (l seen : List α), x ∈ dedupFirstAux seen l ↔ x ∈ l ∧ x ∉ seen := by
  intro l
  induction l with
  | nil => intro seen; simp [dedupFirstAux]
  | cons a l ih =>
    intro seen
    by_cases ha : a ∈ seen
    · simp only [dedupFirstAux, if_pos ha, ih]
      constructor
      · rintro ⟨hx, hs⟩
        exact ⟨List.mem_cons_of_mem _ hx, hs⟩
      · rintro ⟨hx, hs⟩
        rcases List.mem_cons.1 hx with rfl | hx
        · exact absurd ha hs
        · exact ⟨hx, hs⟩
    · simp only [dedupFirstAux, if_neg ha, List.mem_cons, ih]
      constructor
      · rintro (rfl | ⟨hx, hs⟩)
        · exact ⟨Or.inl rfl, ha⟩
        · exact ⟨Or.inr hx, fun hxs => hs (Or.inr hxs)⟩
      · rintro ⟨rfl | hx, hs⟩
        · exact Or.inl rfl
        · by_cases hxa : x = a
          · exact Or.inl hxa
          · exact Or.inr ⟨hx, fun h => h.elim hxa hs⟩

theorem mem_dedupFirst {α : Type} [DecidableEq α] {x : α} {l : List α} :
    x ∈ dedupFirst l ↔ x ∈ l := by
  simp [dedupFirst, mem_dedupFirstAux]

theorem nodup_dedupFirstAux {α : Type} [DecidableEq α] :
    ∀ (l seen : List α), (dedupFirstAux seen l).Nodup := by
  intro l
  induction l with
  | nil => intro seen; simp [dedupFirstAux]
  | cons a l ih =>
    intro seen
    by_cases ha : a ∈ seen
    · simpa [dedupFirstAux, if_pos ha] using ih seen
    · rw [dedupFirstAux, if_neg ha]
      refine List.nodup_cons.2 ⟨?_, ih (a :: seen)⟩
      intro hmem
      exact ((mem_dedupFirstAux l (a :: seen)).1 hmem).2 (List.mem_cons_self a seen)

theorem nodup_dedupFirst {α : Type} [DecidableEq α] (l : List α) :
    (dedupFirst l).Nodup :=
  nodup_dedupFirstAux l []

theorem dedupFirstAux_eq_self {α : Type} [DecidableEq α] :
    ∀ (l seen : List α), l.Nodup → (∀ x ∈ l, x ∉ seen) → dedupFirstAux seen l = l := by
  intro l
  induction l with
  | nil => intro seen _ _; rfl
  | cons a l ih =>
    intro seen hnd hs
    have ha : a ∉ seen := hs a (List.mem_cons_self a l)
    rw [dedupFirstAux, if_neg ha]
    congr 1
    refine ih (a :: seen) (List.nodup_cons.1 hnd).2 ?_
    intro x hx
    intro hmem
    rcases List.mem_cons.1 hmem with rfl | hmem
    · exact (List.nodup_cons.1 hnd).1 hx
    · exact hs x (List.mem_cons_of_mem _ hx) hmem

theorem dedupFirst_eq_self_of_nodup {α : Type} [DecidableEq α] {l : List α}
    (h : l.Nodup) : dedupFirst l = l :=
  dedupFirstAux_eq_self l [] h (by simp)

theorem dedupFirst_idempotent {α : Type} [DecidableEq α] (l : List α) :
    dedupFirst (dedupFirst l) = dedupFirst l :=
  dedupFirst_eq_self_of_nodup (nodup_dedupFirst l)

theorem dedupFirst_ne_nil {α : Type} [DecidableEq α] {l : List α} (h : l ≠ []) :
    dedupFirst l ≠ [] := by
  cases l with
  | nil => exact absurd rfl h
  | cons a l => simp [dedupFirst, dedupFirstAux]

theorem pySplitAux_words :
    ∀ (s cur : List Char), (∀ c ∈ cur, pyIsSpace c = false) →
      ∀ w ∈ pySplitAux cur s, w ≠ [] ∧ ∀ c ∈ w, pyIsSpace c = false := by
  intro s
  induction s with
  | nil =>
    intro cur hcur w hw
    by_cases hc : cur.isEmpty
    · simp [pySplitAux, hc] at hw
    · simp only [pySplitAux, if_neg hc, List.mem_singleton] at hw
      subst hw
      refine ⟨by simpa [List.isEmpty_iff] using hc, ?_⟩
      intro c hcmem
      exact hcur c (List.mem_reverse.1 hcmem)
  | cons c rest ih =>
    intro cur hcur w hw
    by_cases hsp : pyIsSpace c
    · by_cases hc : cur.isEmpty
      · rw [pySplitAux, if_pos hsp, if_pos hc] at hw
        exact ih [] (by simp) w hw
      · rw [pySplitAux, if_pos hsp, if_neg hc] at hw
        rcases List.mem_cons.1 hw with rfl | hw
        · refine ⟨by simpa [List.isEmpty_iff] using hc, ?_⟩
          intro d hd
          exact hcur d (List.mem_reverse.1 hd)
        · exact ih [] (by simp) w hw
    · rw [pySplitAux, if_neg hsp] at hw
      refine ih (c :: cur) ?_ w hw
      intro d hd
      rcases List.mem_cons.1 hd with rfl | hd
      · simpa using hsp
      · exact hcur d hd

theorem pySplit_words {s : List Char} {w : List Char} (hw : w ∈ pySplit s) :
    w ≠ [] ∧ ∀ c ∈ w, pyIsSpace c = false :=
  pySplitAux_words s [] (by simp) w hw

theorem pySplitAux_word_prefix :
    ∀ (w : List Char), (∀ c ∈ w, pyIsSpace c = false) →
      ∀ (cur rest : List Char), pySplitAux cur (w ++ rest) = pySplitAux (w.reverse ++ cur) rest := by
  intro w
  induction w with
  | nil => intro _ cur rest; simp
  | cons c w ih =>
    intro hw cur rest
    have hc : pyIsSpace c = false := hw c (List.mem_cons_self c w)
    have hw' : ∀ d ∈ w, pyIsSpace d = false := fun d hd => hw d (List.mem_cons_of_mem _ hd)
    rw [List.cons_append, pySplitAux, if_neg (by simp [hc]), ih hw' (c :: cur) rest]
    simp

theorem pySplit_joinSpace :
    ∀ (ws : List (List Char)),
      (∀ w ∈ ws, w ≠ [] ∧ ∀ c ∈ w, pyIsSpace c = false) →
      pySplit (joinSpace ws) = ws := by
  intro ws
  induction ws with
  | nil => intro _; rfl
  | cons w ws ih =>
    intro h
    obtain ⟨hwne, hwsp⟩ := h w (List.mem_cons_self w ws)
    cases ws with
    | nil =>
      show pySplitAux [] (joinSpace [w]) = [w]
      have hjw : joinSpace [w] = w := by simp [joinSpace]
      rw [hjw]
      have hpre := pySplitAux_word_prefix w hwsp [] []
      simp only [List.append_nil] at hpre
      rw [hpre, pySplitAux]
      rw [if_neg (by simpa [List.isEmpty_iff] using fun h => hwne (by simpa using congrArg List.reverse h))]
      simp
    | cons w' ws' =>
      show pySplitAux [] (joinSpace (w :: w' :: ws')) = w :: w' :: ws'
      have hjoin : joinSpace (w :: w' :: ws') = w ++ ' ' :: joinSpace (w' :: ws') := by
        simp [joinSpace]
      rw [hjoin]
      have hpre := pySplitAux_word_prefix w hwsp [] (' ' :: joinSpace (w' :: ws'))
      simp only [List.append_nil] at hpre
      rw [hpre, pySplitAux]
      rw [if_pos (by simp [pyIsSpace])]
      rw [if_neg (by simpa [List.isEmpty_iff] using fun h => hwne (by simpa using congrArg List.reverse h))]
      rw [List.reverse_reverse]
      exact congrArg (w :: ·) (ih (fun u hu => h u (List.mem_cons_of_mem _ hu)))

theorem mapWord_mem {isEmoji : Char → Bool} {w : List Char} {c : Char}
    (h : c ∈ mapWord isEmoji w) : c ∈ w := by
  by_cases hall : w.all isEmoji = true
  · rw [mapWord, if_pos hall] at h
    exact mem_dedupFirst.1 h
  · rwa [mapWord, if_neg hall] at h

theorem mapWord_ne_nil {isEmoji : Char → Bool} {w : List Char} (h : w ≠ []) :
    mapWord isEmoji w ≠ [] := by
  by_cases hall : w.all isEmoji = true
  · rw [mapWord, if_pos hall]
    exact dedupFirst_ne_nil h
  · rwa [mapWord, if_neg hall]

theorem mapWord_idem (isEmoji : Char → Bool) (w : List Char) :
    mapWord isEmoji (mapWord isEmoji w) = mapWord isEmoji w := by
  by_cases hall : w.all isEmoji = true
  · have h1 : mapWord isEmoji w = dedupFirst w := by rw [mapWord, if_pos hall]
    have hall' : (dedupFirst w).all isEmoji = true := by
      rw [List.all_eq_true] at hall ⊢
      intro c hc
      exact hall c (mem_dedupFirst.1 hc)
    rw [h1, mapWord, if_pos hall', dedupFirst_idempotent]
  · have h1 : mapWord isEmoji w = w := by rw [mapWord, if_neg hall]
    rw [h1, h1]

theorem uniqueValsStr_word_fixed (isEmoji : Char → Bool) (s : List Char) :
    ∀ u ∈ dedupFirst ((pySplit s).map (mapWord isEmoji)),
      u ≠ [] ∧ (∀ c ∈ u, pyIsSpace c = false) ∧ mapWord isEmoji u = u := by
  intro u hu
  have hu' : u ∈ (pySplit s).map (mapWord isEmoji) := mem_dedupFirst.1 hu
  obtain ⟨w, hw, rfl⟩ := List.mem_map.1 hu'
  obtain ⟨hwne, hwsp⟩ := pySplit_words hw
  exact ⟨mapWord_ne_nil hwne, fun c hc => hwsp c (mapWord_mem hc), mapWord_idem isEmoji w⟩

theorem mem_allItems {α : Type} (ts : List (List α)) (a : α) :
    a ∈ allItems ts ↔ ∃ t ∈ ts, a ∈ t := by
  induction ts with
  | nil => simp [allItems]
  | cons t ts ih =>
    show a ∈ t ++ allItems ts ↔ _
    rw [List.mem_append, ih]
    constructor
    · rintro (h | ⟨u, hu, ha⟩)
      · exact ⟨t, List.mem_cons_self t ts, h⟩
      · exact ⟨u, List.mem_cons_of_mem _ hu, ha⟩
    · rintro ⟨u, hu, ha⟩
      rcases List.mem_cons.1 hu with rfl | hu
      · exact Or.inl ha
      · exact Or.inr ⟨u, hu, ha⟩

theorem getD_map_of_lt {α β : Type} (f : α → β) :
    ∀ (l : List α) (n : ℕ), n < l.length → ∀ (da : α) (db : β),
      (l.map f).getD n db = f (l.getD n da) := by
  intro l
  induction l with
  | nil => intro n hn; cases hn
  | cons a l ih =>
    intro n hn da db
    cases n with
    | zero => rfl
    | succ n =>
      show (l.map f).getD n db = f (l.getD n da)
      exact ih n (by simpa using hn) da db

theorem itemsetSupport_le_one (onehot : List (List Bool)) (S : List ℕ) :
    itemsetSupport onehot S ≤ 1 := by
  rw [itemsetSupport]
  refine div_le_one_of_le₀ ?_ (by positivity)
  exact_mod_cast List.countP_le_length _

theorem dropMirrorAux_positional :
    ∀ (l : List Rule) (p : Rule), dropMirrorAux p l =
      (l.zip (some p :: l.map some)).filterMap fun rp =>
        match rp.2 with
        | none => some rp.1
        | some q => if mirrorOf rp.1 q then none else some rp.1 := by
  intro l
  induction l with
  | nil => intro p; rfl
  | cons r rest ih =>
    intro p
    by_cases h : mirrorOf r p = true
    · rw [dropMirrorAux, if_pos h]
      simp only [List.map_cons, List.zip_cons_cons, List.filterMap_cons, h, if_true]
      exact ih r
    · rw [dropMirrorAux, if_neg h]
      simp only [List.map_cons, List.zip_cons_cons, List.filterMap_cons, h, if_false]
      exact congrArg (r :: ·) (ih r)

/-! ### Claim theorems -/

/-- C10: the normalizer `unique_vals` is idempotent on strings: re-applying it
to its own output changes nothing, both at the level of the string transform
and at the level of the `unique_vals` entry point. -/
theorem uniqueVals_idempotent (isEmoji : Char → Bool) (s : List Char) :
    uniqueValsStr isEmoji (uniqueValsStr isEmoji s) = uniqueValsStr isEmoji s ∧
    unique_vals isEmoji (.scalar (.vStr (uniqueValsStr isEmoji s))) =
      .ok (.str (uniqueValsStr isEmoji (uniqueValsStr isEmoji s))) := by
  have hfix := uniqueValsStr_word_fixed isEmoji s
  have hmain : uniqueValsStr isEmoji (uniqueValsStr isEmoji s) = uniqueValsStr isEmoji s := by
    show joinSpace (dedupFirst
        ((pySplit (joinSpace (dedupFirst ((pySplit s).map (mapWord isEmoji))))).map
          (mapWord isEmoji))) =
      joinSpace (dedupFirst ((pySplit s).map (mapWord isEmoji)))
    rw [pySplit_joinSpace _ (fun w hw => ⟨(hfix w hw).1, (hfix w hw).2.1⟩)]
    rw [show (dedupFirst ((pySplit s).map (mapWord isEmoji))).map (mapWord isEmoji)
        = dedupFirst ((pySplit s).map (mapWord isEmoji)) by
      rw [List.map_congr_left (fun u hu => (hfix u hu).2.2)]
      exact List.map_id' _]
    rw [dedupFirst_eq_self_of_nodup (nodup_dedupFirst _)]
  exact ⟨hmain, by rw [unique_vals, hmain]⟩

/-- C3 counterexample: calling `emoji_only` or `unique_vals` on a null scalar
does not return an empty result — the DataFrame branch's `input_data.copy()`
raises `AttributeError`. -/
theorem normalizer_null_scalar_raises :
    unique_vals (fun _ => false) (.scalar .vNone) = .error .attributeError ∧
    emoji_only (fun _ => false) (.scalar .vNone) = .error .attributeError :=
  ⟨rfl, rfl⟩

/-- C3 (amended): null/non-string values processed through the per-cell path
(the DataFrame branch) yield an empty string and never raise, and string
inputs never raise; but the top-level functions themselves raise
`AttributeError` on a null scalar input. -/
theorem normalizer_null_cell_empty (isEmoji : Char → Bool) (cs : List PyVal)
    (s : List Char) :
    process_text isEmoji .vNone = [] ∧
    emoji_only_cell isEmoji .vNone = [] ∧
    emoji_only isEmoji (.frame cs) = .ok (.frame (cs.map (emoji_only_cell isEmoji))) ∧
    unique_vals isEmoji (.frame cs) = .ok (.frame (cs.map (process_text isEmoji))) ∧
    emoji_only isEmoji (.scalar (.vStr s)) = .ok (.str (emoji_only_str isEmoji s)) ∧
    unique_vals isEmoji (.scalar (.vStr s)) = .ok (.str (uniqueValsStr isEmoji s)) :=
  ⟨rfl, rfl, rfl, rfl, rfl, rfl⟩

/-- C1 counterexample: on the lift-filtered sequence A→B, B→A, A→B the code
drops the third rule (its predecessor in the pre-dedup sequence is the dropped
mirror B→A), whereas the claimed preceding-SURVIVING-rule semantics keeps
it. -/
theorem removeDuplicates_mirror_chain_counterexample :
    removeDuplicates [ruleAB, ruleBA, ruleAB] = [ruleAB] ∧
    removeDuplicatesRetained [ruleAB, ruleBA, ruleAB] = [ruleAB, ruleAB] ∧
    removeDuplicates [ruleAB, ruleBA, ruleAB] ≠
      removeDuplicatesRetained [ruleAB, ruleBA, ruleAB] := by
  refine ⟨?_, ?_, ?_⟩ <;> decide

/-- C1 (amended): in the deduplication pass, the rule at position i > 0 of the
lift-filtered sequence is dropped iff it is the exact mirror of the rule at
position i−1 of that same (pre-dedup) sequence, whether or not that rule
itself survived; in particular, in the chain A→B, B→A, A→B the third rule is
also dropped. -/
theorem removeDuplicates_positional (rules : List Rule) :
    removeDuplicates rules = keptByPosition rules ∧
    removeDuplicates [ruleAB, ruleBA, ruleAB] = [ruleAB] := by
  constructor
  · cases rules with
    | nil => rfl
    | cons r rest =>
      rw [removeDuplicates, keptByPosition]
      simp only [List.map_cons, List.zip_cons_cons, List.filterMap_cons]
      rw [dropMirrorAux_positional rest r]
  · decide

/-- C2 counterexample: on input record "ba" (an emoji-only record), the
builder's column order is the sorted order ['a', 'b'], not the
first-encounter order ['b', 'a']. -/
theorem builder_column_order_counterexample :
    (prepare_emoji_data (fun c => c == 'a' || c == 'b') [['b', 'a']]).1 = ['a', 'b'] ∧
    firstEncounterVocab
      ([['b', 'a']].map (emojiTransaction (fun c => c == 'a' || c == 'b'))) = ['b', 'a'] ∧
    (['a', 'b'] : List Char) ≠ ['b', 'a'] := by
  refine ⟨?_, ?_, ?_⟩ <;> decide

/-- C2 (amended): the presence matrix returned by the Transaction Builder has
its columns in ascending sorted order of the vocabulary items (not
first-encounter order), and its rows in input transaction order: row t is the
indicator row of the transaction derived from input record t. -/
theorem builder_columns_sorted_rows_input_order (isEmoji : Char → Bool)
    (contents : List (List Char)) (q : ℚ) :
    List.Sorted (· ≤ ·) (prepare_emoji_data isEmoji contents).1 ∧
    (prepare_emoji_data isEmoji contents).2 =
      (contents.map (emojiTransaction isEmoji)).map
        (indicatorRow (prepare_emoji_data isEmoji contents).1) ∧
    List.Sorted (· ≤ ·) (prepare_emoji_word_data isEmoji contents q).1 ∧
    (prepare_emoji_word_data isEmoji contents q).2 =
      (prepareWordFilter (contents.map (wordTransaction isEmoji)) q).map
        (indicatorRow (prepare_emoji_word_data isEmoji contents q).1) :=
  ⟨List.sorted_insertionSort _ _, rfl, List.sorted_insertionSort _ _, rfl⟩

/-- C6: a generated rule survives `market_basket_analyzer`'s lift filter iff
(without negative correlations) its lift is ≥ 1 + lift_distance, and (with
negative correlations) its lift is ≥ 1 + lift_distance or ≤ 1 − lift_distance,
both bounds inclusive. -/
theorem liftFilter_mem_iff (d : ℚ) (rules : List Rule) (r : Rule) :
    (r ∈ liftFilter false d rules ↔ r ∈ rules ∧ 1 + d ≤ r.lift) ∧
    (r ∈ liftFilter true d rules ↔ r ∈ rules ∧ (1 + d ≤ r.lift ∨ r.lift ≤ 1 - d)) := by
  constructor
  · rw [liftFilter, List.mem_filter]
    simp [liftPass]
  · rw [liftFilter, List.mem_filter]
    simp [liftPass]

/-- C5: whenever no itemset meets the support threshold — in particular
whenever min_support > 1 — `market_basket_analyzer` returns empty itemsets and
empty rules, and the result does not depend on the rule-generation step (rule
generation is skipped). -/
theorem analyzer_empty_itemsets_skips_rules
    (onehot : List (List Bool)) (support confidence lift_distance : ℚ) (neg : Bool)
    (h : 1 < support ∨
      (0 < support ∧ ∀ S ∈ candidateItemsets onehot, itemsetSupport onehot S < support)) :
    market_basket_analyzer onehot support confidence lift_distance neg = .ok ⟨[], []⟩ ∧
    ∀ ruleGen, market_basket_analyzer_gen ruleGen onehot support confidence lift_distance neg
      = .ok ⟨[], []⟩ := by
  have hpos : 0 < support := by
    rcases h with h1 | ⟨h1, _⟩
    · linarith
    · exact h1
  have hempty : fpgrowthItemsets onehot support = [] := by
    rw [fpgrowthItemsets, List.filterMap_eq_nil_iff]
    intro S hS
    have hlt : itemsetSupport onehot S < support := by
      rcases h with h1 | ⟨_, h2⟩
      · exact lt_of_le_of_lt (itemsetSupport_le_one onehot S) h1
      · exact h2 S hS
    rw [if_neg (not_le.2 hlt)]
  have key : ∀ ruleGen,
      market_basket_analyzer_gen ruleGen onehot support confidence lift_distance neg
        = .ok ⟨[], []⟩ := by
    intro ruleGen
    unfold market_basket_analyzer_gen fpgrowth
    rw [if_neg (not_le.2 hpos), hempty]
    rfl
  exact ⟨key association_rules, key⟩

/-- Witness for C5 at a concrete input: min_support = 2 > 1 on a one-column,
one-row matrix yields the empty result. -/
theorem analyzer_empty_itemsets_skips_rules_witness :
    market_basket_analyzer [[true]] 2 0 0 false = .ok ⟨[], []⟩ :=
  (analyzer_empty_itemsets_skips_rules [[true]] 2 0 0 false (Or.inl (by norm_num))).1

/-- C7: in the word+emoji builder's rare-item pruning, with
min_count = ⌊min_support · #transactions⌋ (Python `int()` equals the floor for
non-negative min_support), the number and order of transactions is preserved,
every item with global count < min_count is removed from every transaction,
and every occurrence of an item with global count ≥ min_count is kept in
place. -/
theorem prepareWordFilter_spec {α : Type} [DecidableEq α]
    (ts : List (List α)) (q : ℚ) (hq : 0 ≤ q) :
    pyInt (q * (ts.length : ℚ)) = ⌊q * (ts.length : ℚ)⌋ ∧
    (prepareWordFilter ts q).length = ts.length ∧
    (∀ i, (prepareWordFilter ts q).getD i [] =
      (ts.getD i []).filter
        (fun a => decide (⌊q * (ts.length : ℚ)⌋ ≤ (countItem ts a : ℤ)))) ∧
    (∀ a t, (countItem ts a : ℤ) < ⌊q * (ts.length : ℚ)⌋ →
      t ∈ prepareWordFilter ts q → a ∉ t) ∧
    (∀ i a, a ∈ ts.getD i [] → ⌊q * (ts.length : ℚ)⌋ ≤ (countItem ts a : ℤ) →
      a ∈ (prepareWordFilter ts q).getD i []) := by
  have hfloor : pyInt (q * (ts.length : ℚ)) = ⌊q * (ts.length : ℚ)⌋ := by
    rw [pyInt, if_pos (mul_nonneg hq (Nat.cast_nonneg _))]
  have hlen : (prepareWordFilter ts q).length = ts.length := by
    simp [prepareWordFilter]
  have hgetD : ∀ i, (prepareWordFilter ts q).getD i [] =
      (ts.getD i []).filter
        (fun a => decide (⌊q * (ts.length : ℚ)⌋ ≤ (countItem ts a : ℤ))) := by
    intro i
    by_cases hi : i < ts.length
    · rw [prepareWordFilter]
      rw [getD_map_of_lt _ ts i hi [] [], hfloor]
    · have h1 : (prepareWordFilter ts q).getD i [] = [] := by
        apply List.getD_eq_default
        rw [hlen]
        omega
      have h2 : ts.getD i [] = [] := by
        apply List.getD_eq_default
        omega
      rw [h1, h2]
      rfl
  refine ⟨hfloor, hlen, hgetD, ?_, ?_⟩
  · intro a t hcount ht hat
    rw [prepareWordFilter] at ht
    simp only [List.mem_map] at ht
    obtain ⟨t0, _, rfl⟩ := ht
    have := (List.mem_filter.1 hat).2
    rw [hfloor] at this
    rw [decide_eq_true_eq] at this
    omega
  · intro i a ha hcount
    rw [hgetD i]
    exact List.mem_filter.2 ⟨ha, by rw [decide_eq_true_eq]; exact hcount⟩

/-- Witness for C7 at a concrete input. -/
theorem prepareWordFilter_spec_witness :
    (prepareWordFilter [[0, 1], [0]] (1 : ℚ)).length = 2 := by
  have h := (prepareWordFilter_spec [[0, 1], [0]] (1 : ℚ) (by norm_num)).2.1
  simpa using h

/-- C8: entry (t, i) of the presence matrix built by the Transaction Builder
is true iff vocabulary item i is a member of transaction t. -/
theorem presenceMatrix_entry_iff_mem {α : Type} [LinearOrder α] [DecidableEq α]
    (ts : List (List α)) (t i : ℕ) (d : α)
    (ht : t < ts.length) (hi : i < (mlbClasses ts).length) :
    (((mlbTransform ts).getD t []).getD i false = true ↔
      (mlbClasses ts).getD i d ∈ ts.getD t []) := by
  have h1 : (mlbTransform ts).getD t [] = indicatorRow (mlbClasses ts) (ts.getD t []) := by
    rw [mlbTransform]
    exact getD_map_of_lt _ ts t ht [] []
  rw [h1, indicatorRow, getD_map_of_lt _ (mlbClasses ts) i hi d false, decide_eq_true_eq]

/-- Witness for C8 at a concrete input. -/
theorem presenceMatrix_entry_iff_mem_witness :
    (((mlbTransform [[0, 1], [1]]).getD 0 []).getD 0 false = true ↔
      (mlbClasses [[0, 1], [1]]).getD 0 7 ∈ ([[0, 1], [1]] : List (List ℕ)).getD 0 []) :=
  presenceMatrix_entry_iff_mem [[0, 1], [1]] 0 0 7 (by decide) (by decide)

/-- C9: the columns of the one-hot DataFrame are exactly the distinct items of
the (filtered) transactions, in ascending sorted order, with no duplicates. -/
theorem mlbClasses_sorted_nodup_complete {α : Type} [LinearOrder α] [DecidableEq α]
    (ts : List (List α)) :
    List.Sorted (· ≤ ·) (mlbClasses ts) ∧ (mlbClasses ts).Nodup ∧
    ∀ a, a ∈ mlbClasses ts ↔ ∃ t ∈ ts, a ∈ t := by
  refine ⟨List.sorted_insertionSort _ _, ?_, ?_⟩
  · exact ((List.perm_insertionSort _ _).nodup_iff).2 (List.nodup_dedup _)
  · intro a
    rw [mlbClasses, (List.perm_insertionSort _ _).mem_iff, List.mem_dedup]
    exact mem_allItems ts a

theorem candidate_single_col : candidateItemsets [[true], [true]] = [[0]] := rfl

theorem itemsetSupport_single_col : itemsetSupport [[true], [true]] [0] = 1 := by
  rw [itemsetSupport]
  show ((2 : ℕ) : ℚ) / ((2 : ℕ) : ℚ) = 1
  norm_num

theorem fpgrowthItemsets_single_col (q : ℚ) :
    fpgrowthItemsets [[true], [true]] q = if q ≤ 1 then [({0}, 1)] else [] := by
  rw [fpgrowthItemsets, candidate_single_col]
  simp only [List.filterMap_cons, List.filterMap_nil, itemsetSupport_single_col]
  by_cases h : q ≤ 1
  · rw [if_pos h, if_pos h]
    refine congrArg (· :: []) ?_
    refine congrArg (·, (1 : ℚ)) ?_
    decide
  · rw [if_neg h, if_neg h]

theorem association_rules_singleton_itemset (c : ℚ) :
    association_rules [({0}, 1)] c = [] := by
  rw [association_rules]
  simp

theorem analyzer_eval_single_col (conf d : ℚ) (neg : Bool) :
    market_basket_analyzer [[true], [true]] (1 / 2) conf d neg =
      .ok ⟨[({0}, 1)],
        removeDuplicates (liftFilter neg d (association_rules [({0}, 1)] conf))⟩ := by
  unfold market_basket_analyzer market_basket_analyzer_gen fpgrowth
  rw [if_neg (by norm_num), fpgrowthItemsets_single_col, if_pos (by norm_num)]
  rfl

/-- C4 counterexample: with confidence = 3 (outside [0, 1]) and
lift_distance = −1 (negative), `market_basket_analyzer` does not fail with a
configuration error: it runs the whole pipeline and returns a result with a
non-empty itemset list. -/
theorem analyzer_no_failfast_counterexample :
    market_basket_analyzer [[true], [true]] (1 / 2) 3 (-1) false =
      .ok ⟨[({0}, 1)], []⟩ := by
  rw [analyzer_eval_single_col, association_rules_singleton_itemset]
  rfl

/-- C4 (amended): `market_basket_analyzer` performs no validation of its
thresholds.  support ≤ 0 raises a ValueError from inside the mining library
call (not a pre-mining configuration check); support > 1 silently yields an
empty result; out-of-range confidence and negative lift_distance are silently
used by the filters. -/
theorem analyzer_no_validation :
    market_basket_analyzer [[true]] 0 0 0 false = .error .valueError ∧
    market_basket_analyzer [[true], [true]] 2 0 0 false = .ok ⟨[], []⟩ ∧
    market_basket_analyzer [[true], [true]] (1 / 2) (-1) 5 true =
      .ok ⟨[({0}, 1)], []⟩ := by
  refine ⟨?_, ?_, ?_⟩
  · unfold market_basket_analyzer market_basket_analyzer_gen fpgrowth
    rw [if_pos (le_refl (0 : ℚ))]
  · unfold market_basket_analyzer market_basket_analyzer_gen fpgrowth
    rw [if_neg (by norm_num), fpgrowthItemsets_single_col, if_neg (by norm_num)]
    rfl
  · rw [analyzer_eval_single_col, association_rules_singleton_itemset]
    rfl

end TrollMBA
